import Mathlib

/-
  Verification development for the `React.Children` child-node flattening and
  key-assignment engine (packages/react/src/ReactChildren.js).

  The JS source is shallowly embedded: JS values that can appear in a child
  tree are modelled by the inductive type `Node`; the mutable traversal
  context (result array + running count) becomes the explicitly threaded
  `MapState`; `invariant(false, msg, ...)` becomes `Except.error msg`.
  Functions keep the names of the source functions they embed.
-/

set_option maxHeartbeats 1000000
set_option maxRecDepth 10000

namespace ReactChildren

mutual
/-- A JS value in a React child tree: `nullv` is JS `null`, `undef` is
`undefined`, `bool`/`str`/`num` are primitives, `elem` is an object with
`$$typeof === REACT_ELEMENT_TYPE` (optional explicit `key`, opaque payload),
`portal` likewise for `REACT_PORTAL_TYPE`, `arr` is a JS array, `iterable`
an object exposing a `Symbol.iterator` yielding the given nodes, and `obj`
any other object (its own property names, and its string conversion:
`"[object Object]"` for a plain object). -/
inductive Node where
  | nullv : Node
  | undef : Node
  | bool (b : Bool) : Node
  | str (s : String) : Node
  | num (n : Int) : Node
  | elem (key : Option String) (payload : Nat) : Node
  | portal (key : Option String) (payload : Nat) : Node
  | arr (children : NodeList) : Node
  | iterable (children : NodeList) : Node
  | obj (objKeys : List String) (stringified : String) : Node

/-- A list of child nodes (the elements of a JS array / iterable). -/
inductive NodeList where
  | nil : NodeList
  | cons (hd : Node) (tl : NodeList) : NodeList
end

/-- Convert a Lean list of nodes to a `NodeList`. -/
def NodeList.ofList : List Node → NodeList
  | [] => .nil
  | c :: cs => .cons c (NodeList.ofList cs)

/-- Length of a `NodeList`. -/
def NodeList.length : NodeList → Nat
  | .nil => 0
  | .cons _ tl => tl.length + 1

/-- `const SEPARATOR = '.'` -/
def SEPARATOR : String := "."

/-- `const SUBSEPARATOR = ':'` -/
def SUBSEPARATOR : String := ":"

/-- One base-36 digit, as produced by JS `Number.prototype.toString(36)`
(digits `0`-`9` then lowercase `a`-`z`). -/
def digit36 (n : Nat) : Char :=
  if n < 10 then Char.ofNat (48 + n) else Char.ofNat (87 + n)

/-- Fuelled accumulator loop for base-36 rendering; fuel `n` always suffices
for input `n` since the value shrinks by a factor of 36 each step. -/
def toBase36Aux : Nat → Nat → List Char → List Char
  | 0, n, acc => digit36 (n % 36) :: acc
  | fuel + 1, n, acc =>
    if n < 36 then digit36 n :: acc
    else toBase36Aux fuel (n / 36) (digit36 (n % 36) :: acc)

/-- JS `index.toString(36)` for a natural index. -/
def toBase36 (n : Nat) : String :=
  String.mk (toBase36Aux n n [])

/-- Per-character body of `('' + key).replace(/[=:]/g, ...)` in `escape`:
`=` becomes `=0`, `:` becomes `=2`. -/
def escapeChars : List Char → List Char
  | [] => []
  | c :: rest =>
    (if c = '=' then ['=', '0'] else if c = ':' then ['=', '2'] else [c]) ++ escapeChars rest

/-- `escape(key)`: replace `=` with `=0` and `:` with `=2`, then prepend `$`. -/
def escape (key : String) : String :=
  "$" ++ String.mk (escapeChars key.data)

/-- Body of `('' + text).replace(/\/+/g, '$&/')`: every maximal run of `/`
characters is replaced by itself followed by one extra `/`. -/
def escapeUserChars : List Char → List Char
  | [] => []
  | '/' :: rest =>
    match rest with
    | '/' :: _ => '/' :: escapeUserChars rest
    | _ => '/' :: '/' :: escapeUserChars rest
  | c :: rest => c :: escapeUserChars rest

/-- `escapeUserProvidedKey(text)`. -/
def escapeUserProvidedKey (text : String) : String :=
  String.mk (escapeUserChars text.data)

/-- `isValidElement` from ReactElement.js: `$$typeof === REACT_ELEMENT_TYPE`
(portals are not valid elements). -/
def isValidElement : Node → Bool
  | .elem _ _ => true
  | _ => false

/-- `getComponentKey(component, index)`: an object child with a non-null
`key` yields `escape(key)`, anything else the index in base 36. -/
def getComponentKey (component : Node) (index : Nat) : String :=
  match component with
  | .elem (some k) _ => escape k
  | .portal (some k) _ => escape k
  | _ => toBase36 index

/-- The message produced by the `invariant(false, 'Objects are not valid as a
React child (found: %s).%s', ...)` call in `traverseAllChildrenImpl`
(production build: empty addendum). -/
def invalidChildMessage (objKeys : List String) (stringified : String) : String :=
  "Objects are not valid as a React child (found: " ++
    (if stringified == "[object Object]"
     then ("object with keys \x7b") ++ String.intercalate (", ") objKeys ++ ("\x7d")
     else stringified) ++ (").")

/-- The traverse-context fields mutated during a map traversal: the shared
`result` array and the running `count`. -/
structure MapState where
  result : List Node
  count : Nat

/-- JS falsiness of a modelled child value (used by `!child` in
`mapSingleChildIntoContext`). -/
def isFalsy : Node → Bool
  | .nullv | .undef => true
  | .bool b => !b
  | .str s => s == ""
  | .num n => n == 0
  | _ => false

/-- JS `child.key === mkey` for a truthy string `mkey`: only an element or
portal with exactly that explicit key compares equal (for every other child
the access yields `undefined` or JS `null`, which is `!==` any string). -/
def childKeyEq (child : Node) (mkey : String) : Bool :=
  match child with
  | .elem (some k) _ => k == mkey
  | .portal (some k) _ => k == mkey
  | _ => false

/-- The non-array tail of `mapSingleChildIntoContext`: drop a nullish mapped
value; clone a valid element replacing its key with
`keyPrefix + userKeySegment + childKey`; push anything else unchanged. -/
def pushMapped (keyPfx : String) (child mappedChild : Node) (childKey : String)
    (result : List Node) : List Node :=
  match mappedChild with
  | .nullv | .undef => result
  | .elem mk p =>
    let seg : String :=
      match mk with
      | some mkey =>
        if (mkey != "") && (isFalsy child || !childKeyEq child mkey)
        then escapeUserProvidedKey mkey ++ ("/")
        else ""
      | none => ""
    result ++ [Node.elem (some (keyPfx ++ seg ++ childKey)) p]
  | m => result ++ [m]

/-- Key given to the callback at a leaf: if `nameSoFar` is empty the leaf is
treated as if wrapped in an array (`SEPARATOR + getComponentKey(child, 0)`),
else `nameSoFar` unchanged. -/
def leafKey (child : Node) (nameSoFar : String) : String :=
  if nameSoFar = "" then SEPARATOR ++ getComponentKey child 0 else nameSoFar

/-- `nextNamePrefix` in `traverseAllChildrenImpl`. -/
def nextNamePfx (nameSoFar : String) : String :=
  if nameSoFar = "" then SEPARATOR else nameSoFar ++ SUBSEPARATOR

/-- `mapSingleChildIntoContext` specialized to the identity map function
(`c => c`), applied at a leaf child. The callback only ever receives leaf
nodes, and the identity of a leaf is never an array, so the
`Array.isArray(mappedChild)` branch is vacuous here and the push tail runs
with `mappedChild = child`. -/
def mapSingleChildIdentLeaf (keyPfx : String) (st : MapState) (child : Node)
    (childKey : String) : MapState :=
  ⟨pushMapped keyPfx child child childKey st.result, st.count + 1⟩

mutual
/-- `traverseAllChildrenImpl` as run by the inner
`mapIntoWithKeyPrefixInternal(mappedChild, result, childKey, c => c)` call:
the traverse context has the identity map function, so each leaf is pushed
by `mapSingleChildIdentLeaf`. `undefined` and booleans normalize to `null`
before classification; a non-array non-iterable object is a fatal error. -/
def traverseIdentImpl (keyPfx : String) (children : Node) (nameSoFar : String)
    (st : MapState) : Except String MapState :=
  match children with
  | .undef | .bool _ | .nullv =>
    .ok (mapSingleChildIdentLeaf keyPfx st .nullv (leafKey .nullv nameSoFar))
  | .str s => .ok (mapSingleChildIdentLeaf keyPfx st (.str s) (leafKey (.str s) nameSoFar))
  | .num n => .ok (mapSingleChildIdentLeaf keyPfx st (.num n) (leafKey (.num n) nameSoFar))
  | .elem k p =>
    .ok (mapSingleChildIdentLeaf keyPfx st (.elem k p) (leafKey (.elem k p) nameSoFar))
  | .portal k p =>
    .ok (mapSingleChildIdentLeaf keyPfx st (.portal k p) (leafKey (.portal k p) nameSoFar))
  | .arr l => traverseIdentList keyPfx l 0 (nextNamePfx nameSoFar) st
  | .iterable l => traverseIdentList keyPfx l 0 (nextNamePfx nameSoFar) st
  | .obj ks s => .error (invalidChildMessage ks s)

/-- The `for`/iterator loop of the identity-mapping `traverseAllChildrenImpl`:
recurse on each element with key `namePfx + getComponentKey(child, i)`. -/
def traverseIdentList (keyPfx : String) (l : NodeList) (i : Nat) (namePfx : String)
    (st : MapState) : Except String MapState :=
  match l with
  | .nil => .ok st
  | .cons c cs => do
    let st2 ← traverseIdentImpl keyPfx c (namePfx ++ getComponentKey c i) st
    traverseIdentList keyPfx cs (i + 1) namePfx st2
end

/-- `mapSingleChildIntoContext(bookKeeping, child, childKey)`: apply the map
function, then either re-flatten an array result through
`mapIntoWithKeyPrefixInternal(mappedChild, result, childKey, c => c)` (fresh
count, same result array, prefix `escapeUserProvidedKey(childKey) + '/'`),
or push the (possibly re-keyed) mapped value. -/
def mapSingleChildIntoContext (func : Node → Nat → Node) (keyPfx : String)
    (st : MapState) (child : Node) (childKey : String) : Except String MapState :=
  let mappedChild := func child st.count
  match mappedChild with
  | .arr l => do
    let st2 ← traverseIdentList (escapeUserProvidedKey childKey ++ ("/")) l 0 SEPARATOR
      ⟨st.result, 0⟩
    .ok ⟨st2.result, st.count + 1⟩
  | m => .ok ⟨pushMapped keyPfx child m childKey st.result, st.count + 1⟩

mutual
/-- `traverseAllChildrenImpl(children, nameSoFar, callback, traverseContext)`
for an arbitrary callback `cb` threading state `σ`; returns the threaded
state and the subtree leaf count. `undefined` and booleans normalize to
`null`; `null`, strings, numbers, elements and portals invoke the callback;
arrays and iterables recurse; any other object is a fatal error. -/
def traverseAllChildrenImpl {σ : Type} (cb : σ → Node → String → Except String σ)
    (children : Node) (nameSoFar : String) (st : σ) : Except String (σ × Nat) :=
  match children with
  | .undef | .bool _ | .nullv =>
    (cb st .nullv (leafKey .nullv nameSoFar)).map (fun st2 => (st2, 1))
  | .str s => (cb st (.str s) (leafKey (.str s) nameSoFar)).map (fun st2 => (st2, 1))
  | .num n => (cb st (.num n) (leafKey (.num n) nameSoFar)).map (fun st2 => (st2, 1))
  | .elem k p => (cb st (.elem k p) (leafKey (.elem k p) nameSoFar)).map (fun st2 => (st2, 1))
  | .portal k p =>
    (cb st (.portal k p) (leafKey (.portal k p) nameSoFar)).map (fun st2 => (st2, 1))
  | .arr l => traverseAllChildrenList cb l 0 (nextNamePfx nameSoFar) st
  | .iterable l => traverseAllChildrenList cb l 0 (nextNamePfx nameSoFar) st
  | .obj ks s => .error (invalidChildMessage ks s)

/-- The element loop of `traverseAllChildrenImpl`: fold the callback over the
list, summing subtree counts. -/
def traverseAllChildrenList {σ : Type} (cb : σ → Node → String → Except String σ)
    (l : NodeList) (i : Nat) (namePfx : String) (st : σ) : Except String (σ × Nat) :=
  match l with
  | .nil => .ok (st, 0)
  | .cons c cs => do
    let r1 ← traverseAllChildrenImpl cb c (namePfx ++ getComponentKey c i) st
    let r2 ← traverseAllChildrenList cb cs (i + 1) namePfx r1.1
    .ok (r2.1, r1.2 + r2.2)
end

/-- `traverseAllChildren(children, callback, traverseContext)`: `null` or
`undefined` children yield count 0 without traversing. -/
def traverseAllChildren {σ : Type} (cb : σ → Node → String → Except String σ)
    (children : Node) (st : σ) : Except String (σ × Nat) :=
  match children with
  | .nullv | .undef => .ok (st, 0)
  | c => traverseAllChildrenImpl cb c ("") st

/-- `countChildren(children)`: traverse with the no-op callback `() => null`
and return the leaf count. -/
def countChildren (children : Node) : Except String Nat :=
  (traverseAllChildren (fun st _ _ => Except.ok st) children ()).map (fun r => r.2)

/-- `forEachSingleChild(bookKeeping, child, name)`: call the user function
with the child and the running count, then bump the count. -/
def forEachSingleChild (forEachFunc : Node → Nat → Node) (count : Nat) (child : Node)
    (_name : String) : Except String Nat :=
  let _ := forEachFunc child count
  .ok (count + 1)

/-- `forEachChildren(children, forEachFunc, forEachContext)`. -/
def forEachChildren (children : Node) (forEachFunc : Node → Nat → Node) :
    Except String Unit :=
  (traverseAllChildren (forEachSingleChild forEachFunc) children 0).map (fun _ => ())

/-- `mapIntoWithKeyPrefixInternal(children, array, prefix, func, context)`:
escape a non-null prefix, then traverse with `mapSingleChildIntoContext`. -/
def mapIntoWithKeyPrefixInternal (children : Node) (array : List Node)
    (pfx : Option String) (func : Node → Nat → Node) : Except String (List Node) :=
  let escapedPfx : String :=
    match pfx with
    | some p => escapeUserProvidedKey p ++ ("/")
    | none => ""
  (traverseAllChildren (mapSingleChildIntoContext func escapedPfx) children
    ⟨array, 0⟩).map (fun r => r.1.result)

/-- `mapChildren(children, func, context)`: a `null`/`undefined` root is
returned unchanged; otherwise the flattened result array is returned. -/
def mapChildren (children : Node) (func : Node → Nat → Node) : Except String Node :=
  match children with
  | .nullv => .ok .nullv
  | .undef => .ok .undef
  | c => (mapIntoWithKeyPrefixInternal c [] none func).map
      (fun l => .arr (NodeList.ofList l))

/-- `toArray(children)`: always build a result array, mapping with
`child => child`. -/
def toArray (children : Node) : Except String Node :=
  (mapIntoWithKeyPrefixInternal children [] none (fun child _ => child)).map
    (fun l => .arr (NodeList.ofList l))

/-- The message of the `invariant` in `onlyChild`. -/
def onlyChildMessage : String :=
  "React.Children.only expected to receive a single React element child."

/-- `onlyChild(children)`: assert `isValidElement(children)` and return the
input unchanged. -/
def onlyChild (children : Node) : Except String Node :=
  if isValidElement children then .ok children else .error onlyChildMessage

mutual
/-- Whether a tree has a leaf (in traversal position) that normalizes to
`null`: a `null`, `undefined` or boolean node. -/
def hasNullishLeaf : Node → Bool
  | .nullv | .undef | .bool _ => true
  | .arr l | .iterable l => hasNullishLeafList l
  | _ => false

/-- `hasNullishLeaf` over a list of children. -/
def hasNullishLeafList : NodeList → Bool
  | .nil => false
  | .cons c cs => hasNullishLeaf c || hasNullishLeafList cs
end

mutual
/-- Whether a tree contains, in traversal position, an object that is neither
an element, portal, array nor iterable (the invalid-child case). -/
def containsObj : Node → Bool
  | .obj _ _ => true
  | .arr l | .iterable l => containsObjList l
  | _ => false

/-- `containsObj` over a list of children. -/
def containsObjList : NodeList → Bool
  | .nil => false
  | .cons c cs => containsObj c || containsObjList cs
end

/-- Whether a node is a single leaf (not an array, iterable or invalid
object): exactly the nodes on which the traversal invokes its callback
directly. -/
def isLeafNode : Node → Bool
  | .arr _ | .iterable _ | .obj _ _ => false
  | _ => true

/-- Erase the key of an element; leave every other node unchanged. Used to
compare map outputs up to the re-keying `mapChildren` performs on cloned
elements. -/
def stripKey : Node → Node
  | .elem _ p => .elem none p
  | m => m

/-- `stripKey` applied to each element of a result list. -/
def stripList : NodeList → NodeList
  | .nil => .nil
  | .cons c cs => .cons (stripKey c) (stripList cs)

/-- `stripKey` under a top-level result array; other (pass-through) results
unchanged. -/
def stripTop : Node → Node
  | .arr l => .arr (stripList l)
  | m => m

/-- The JS value of `child.key` as an option: for an element or portal its
`key` field (React stores `null` for an absent key, merged here with
`undefined` into `none` — both compare `!==` to every string), `none` for
every other node. -/
def childKeyOpt : Node → Option String
  | .elem k _ => k
  | .portal k _ => k
  | _ => none

/-- The user-key segment exactly as the spec words it: present exactly when
the mapped element carries its own explicit key that differs from the
original child's key. -/
def userKeySegmentSpec (child : Node) (mappedKey : Option String) : String :=
  match mappedKey with
  | some mk =>
    if childKeyOpt child ≠ some mk then escapeUserProvidedKey mk ++ ("/") else ""
  | none => ""

/-- The user-key segment as amended: additionally the mapped key must be a
non-empty string (JS truthiness of `mappedChild.key` treats the explicit
empty-string key as absent). -/
def userKeySegmentAmended (child : Node) (mappedKey : Option String) : String :=
  match mappedKey with
  | some mk =>
    if mk ≠ "" ∧ childKeyOpt child ≠ some mk then escapeUserProvidedKey mk ++ ("/")
    else ""
  | none => ""

/-- Single-character substitution described by the spec for `escape`: `=` to
`=0`, `:` to `=2`, anything else unchanged. -/
def escCharSpec (c : Char) : List Char :=
  if c = '=' then ['=', '0'] else if c = ':' then ['=', '2'] else [c]

/-- The normalization at the top of `traverseAllChildrenImpl`: `undefined`
and booleans are perceived as `null`. -/
def normalizeChild : Node → Node
  | .undef | .bool _ => .nullv
  | c => c

/-- The node shapes actually passed to the traversal callback (a normalized
leaf): `null`, string, number, element or portal. -/
def isCallbackLeaf : Node → Bool
  | .nullv | .str _ | .num _ | .elem _ _ | .portal _ _ => true
  | _ => false

/-- `const POOL_SIZE = 10` -/
def POOL_SIZE : Nat := 10

/-- The pooled traversal record (`getPooledTraverseContext`'s object shape):
the output array, key prefix, map/forEach function and its bind context
(functions and contexts modelled by opaque identifiers), and the running
count. A field holding JS `null` is `none`. -/
structure TraverseContext where
  result : Option (List Node)
  keyPfx : Option String
  func : Option Nat
  context : Option Nat
  count : Nat

/-- `getPooledTraverseContext(mapResult, keyPrefix, mapFunction, mapContext)`:
pop a record off the pool and fill its fields, or allocate a fresh one. -/
def getPooledTraverseContext (pool : List TraverseContext)
    (mapResult : Option (List Node)) (keyPfx : Option String)
    (mapFunction : Option Nat) (mapContext : Option Nat) :
    TraverseContext × List TraverseContext :=
  match pool with
  | tc :: rest =>
    ({tc with
      result := mapResult
      keyPfx := keyPfx
      func := mapFunction
      context := mapContext
      count := 0}, rest)
  | [] =>
    (⟨mapResult, keyPfx, mapFunction, mapContext, 0⟩, [])

/-- `releaseTraverseContext(traverseContext)`: clear every field, then return
the record to the pool only if the pool holds fewer than `POOL_SIZE`
records. -/
def releaseTraverseContext (tc : TraverseContext) (pool : List TraverseContext) :
    List TraverseContext :=
  let cleared : TraverseContext :=
    {tc with
      result := none
      keyPfx := none
      func := none
      context := none
      count := 0}
  if pool.length < POOL_SIZE then cleared :: pool else pool

/-- A record retains nothing: all reference fields cleared, count reset. -/
def isCleared (tc : TraverseContext) : Bool :=
  tc.result.isNone && tc.keyPfx.isNone && tc.func.isNone &&
    tc.context.isNone && tc.count == 0

/-- One pool interaction performed by a Child Operation: acquiring a record
(with the given field values) or releasing a checked-out record. A run of an
operation, whether it returns normally or aborts on a fatal error, performs
some finite sequence of these events (an aborted run simply stops after a
prefix, leaving its checked-out records unreleased). -/
inductive PoolEvent where
  | acquire (mapResult : Option (List Node)) (keyPfx : Option String)
      (mapFunction : Option Nat) (mapContext : Option Nat) : PoolEvent
  | release (tc : TraverseContext) : PoolEvent

/-- Effect of one pool event on the pool. -/
def poolStep (pool : List TraverseContext) : PoolEvent → List TraverseContext
  | .acquire r k f c => (getPooledTraverseContext pool r k f c).2
  | .release tc => releaseTraverseContext tc pool

/-- The pool invariant: at most `POOL_SIZE` records, all fully cleared. -/
def poolInv (pool : List TraverseContext) : Prop :=
  pool.length ≤ POOL_SIZE ∧ ∀ tc ∈ pool, isCleared tc = true

/-! ### Helper lemmas -/

/-- Simultaneous induction over `Node` and `NodeList`. -/
theorem nodeMutualInduction (P : Node → Prop) (Q : NodeList → Prop)
    (h1 : P .nullv) (h2 : P .undef) (h3 : ∀ b, P (.bool b)) (h4 : ∀ s, P (.str s))
    (h5 : ∀ n, P (.num n)) (h6 : ∀ k p, P (.elem k p)) (h7 : ∀ k p, P (.portal k p))
    (h8 : ∀ l, Q l → P (.arr l)) (h9 : ∀ l, Q l → P (.iterable l))
    (h10 : ∀ ks s, P (.obj ks s)) (h11 : Q .nil)
    (h12 : ∀ c cs, P c → Q cs → Q (.cons c cs)) :
    (∀ c, P c) ∧ (∀ l, Q l) :=
  ⟨fun c => @Node.rec P Q h1 h2 h3 h4 h5 h6 h7 h8 h9 h10 h11 h12 c,
   fun l => @NodeList.rec P Q h1 h2 h3 h4 h5 h6 h7 h8 h9 h10 h11 h12 l⟩

/-- A key that starts with the separator is never the empty string. -/
theorem sepAppend_ne_empty (s : String) : SEPARATOR ++ s ≠ "" := by
  intro h
  have hd : (SEPARATOR ++ s).data = ("" : String).data := by rw [h]
  rw [String.data_append] at hd
  simp [SEPARATOR] at hd

/-- `leafKey` leaves a separator-rooted (hence non-empty) path unchanged. -/
theorem leafKey_of_sep (c : Node) (s : String) :
    leafKey c (SEPARATOR ++ s) = SEPARATOR ++ s := by
  unfold leafKey
  rw [if_neg (sepAppend_ne_empty s)]

/-- Bind on a successful `Except` computation runs the continuation. -/
theorem except_bind_ok {α β : Type} (a : α) (f : α → Except String β) :
    (Except.ok a >>= f) = f a := rfl

/-- Bind on a failed `Except` computation propagates the error. -/
theorem except_bind_err {α β : Type} (e : String) (f : α → Except String β) :
    ((Except.error e : Except String α) >>= f) = .error e := rfl

/-- `escapeChars` performs the independent per-character substitution
`escCharSpec` over the whole input. -/
theorem escapeChars_eq_join (l : List Char) :
    escapeChars l = (l.map escCharSpec).flatten := by
  induction l with
  | nil => rfl
  | cons c rest ih => simp [escapeChars, escCharSpec, ih]

/-! ### Claim theorems -/

/-- C2: `mapChildren([a, null, b], identity)` for elements `a`, `b` yields a
two-element sequence holding (the re-keyed clones of) `a` and `b` in order —
the `null` leaf is dropped — while `countChildren([a, null, b])` is 3: the
`null` leaf is counted. -/
theorem claim_C2_null_handling :
    mapChildren (.arr (.cons (.elem none 1) (.cons .nullv (.cons (.elem none 2) .nil))))
      (fun c _ => c) =
      .ok (.arr (.cons (.elem (some (".0")) 1) (.cons (.elem (some (".2")) 2) .nil))) ∧
    (mapChildren (.arr (.cons (.elem none 1) (.cons .nullv (.cons (.elem none 2) .nil))))
      (fun c _ => c)).map stripTop =
      .ok (.arr (.cons (.elem none 1) (.cons (.elem none 2) .nil))) ∧
    countChildren (.arr (.cons (.elem none 1) (.cons .nullv (.cons (.elem none 2) .nil)))) =
      .ok 3 :=
  ⟨rfl, rfl, rfl⟩

/-- C5: `onlyChild` errors on every input that is not itself a single valid
element — including a one-element array or iterable — and returns a valid
element input unchanged. -/
theorem claim_C5_onlyChild :
    (∀ c : Node, isValidElement c = false → onlyChild c = .error onlyChildMessage) ∧
    (∀ c : Node, isValidElement c = true → onlyChild c = .ok c) ∧
    onlyChild (.arr (.cons (.elem none 1) .nil)) = .error onlyChildMessage ∧
    onlyChild (.iterable (.cons (.elem none 1) .nil)) = .error onlyChildMessage ∧
    onlyChild (.arr (.cons (.elem none 1) (.cons (.elem none 2) .nil))) =
      .error onlyChildMessage := by
  refine ⟨?_, ?_, rfl, rfl, rfl⟩ <;> intro c h <;> simp [onlyChild, h]

/-- Witness for C5 at concrete inputs. -/
theorem claim_C5_onlyChild_witness :
    onlyChild (Node.str ("a")) = .error onlyChildMessage ∧
    onlyChild (Node.elem (some ("k")) 3) = .ok (Node.elem (some ("k")) 3) :=
  ⟨claim_C5_onlyChild.1 (Node.str ("a")) rfl,
   claim_C5_onlyChild.2.1 (Node.elem (some ("k")) 3) rfl⟩

/-- C7: `mapChildren` passes a `null`/`undefined` root through unchanged,
while `toArray` returns an array for every successful call, including the
empty array for a `null`/`undefined` root. -/
theorem claim_C7_null_root :
    (∀ func, mapChildren .nullv func = .ok .nullv) ∧
    (∀ func, mapChildren .undef func = .ok .undef) ∧
    toArray .nullv = .ok (.arr .nil) ∧
    toArray .undef = .ok (.arr .nil) ∧
    (∀ (T r : Node), toArray T = .ok r → ∃ l, r = .arr l) := by
  refine ⟨fun _ => rfl, fun _ => rfl, rfl, rfl, ?_⟩
  intro T r h
  unfold toArray at h
  cases hm : mapIntoWithKeyPrefixInternal T [] none (fun child _ => child) with
  | error e => rw [hm] at h; simp [Except.map] at h
  | ok l =>
    rw [hm] at h
    simp [Except.map] at h
    exact ⟨NodeList.ofList l, h.symm⟩

/-- Witness for C7 at a concrete input. -/
theorem claim_C7_null_root_witness :
    ∃ l, Node.arr (NodeList.cons (Node.str ("a")) NodeList.nil) = Node.arr l :=
  claim_C7_null_root.2.2.2.2 (Node.str ("a"))
    (Node.arr (NodeList.cons (Node.str ("a")) NodeList.nil)) rfl

/-- C9: `escape` stringifies, substitutes `=` ↦ `=0` and `:` ↦ `=2`
character-by-character in one pass, and prepends `$`; the explicit key
`"a:b=c"` therefore appears in its computed path as the segment
`$a=2b=0c`. -/
theorem claim_C9_escape :
    (∀ key : String, escape key = "$" ++ String.mk ((key.data.map escCharSpec).flatten)) ∧
    escape ("a:b=c") = ("$a=2b=0c") ∧
    getComponentKey (.elem (some ("a:b=c")) 0) 5 = ("$a=2b=0c") ∧
    toArray (.arr (.cons (.elem (some ("a:b=c")) 7) .nil)) =
      .ok (.arr (.cons (.elem (some (".$a=2b=0c")) 7) .nil)) := by
  refine ⟨?_, rfl, rfl, rfl⟩
  intro key
  rw [escape, escapeChars_eq_join]

/-- A single pool event preserves the pool invariant: acquisition only
shrinks the pool, and release pushes a fully cleared record only when the
pool is below capacity. -/
theorem poolStep_preserves (pool : List TraverseContext) (e : PoolEvent) :
    poolInv pool → poolInv (poolStep pool e) := by
  rintro ⟨hlen, hmem⟩
  cases e with
  | acquire r k f c =>
    cases pool with
    | nil =>
      exact ⟨by simp [poolStep, getPooledTraverseContext], by
        simp [poolStep, getPooledTraverseContext]⟩
    | cons tc rest =>
      refine ⟨?_, ?_⟩
      · simp only [poolStep, getPooledTraverseContext]
        simp at hlen ⊢
        omega
      · intro x hx
        simp only [poolStep, getPooledTraverseContext] at hx
        exact hmem x (List.mem_cons_of_mem _ hx)
  | release tc =>
    by_cases h : pool.length < POOL_SIZE
    · refine ⟨?_, ?_⟩
      · simp only [poolStep, releaseTraverseContext, if_pos h, List.length_cons]
        omega
      · intro x hx
        simp only [poolStep, releaseTraverseContext, if_pos h, List.mem_cons] at hx
        rcases hx with hx | hx
        · subst hx; rfl
        · exact hmem x hx
    · simpa [poolStep, releaseTraverseContext, if_neg h] using ⟨hlen, hmem⟩

/-- C10: starting from a pool satisfying the invariant, any finite sequence
of acquire/release events — in particular the sequence performed by a Child
Operation run, whether it returns normally or aborts on a fatal error
partway (leaving checked-out records unreleased) — leaves at most
`POOL_SIZE` = 10 records in the pool, all with accumulator, key prefix, map
function and bind context cleared and count reset. -/
theorem claim_C10_pool_safety :
    ∀ (events : List PoolEvent) (pool : List TraverseContext),
      poolInv pool → poolInv (List.foldl poolStep pool events) := by
  intro events
  induction events with
  | nil => intro pool h; exact h
  | cons e es ih => intro pool h; exact ih _ (poolStep_preserves pool e h)

/-- Witness for C10: one acquire and one release of a dirty record starting
from the empty pool. -/
theorem claim_C10_pool_safety_witness :
    poolInv (List.foldl poolStep []
      [PoolEvent.acquire (some []) (some ("")) (some 0) none,
       PoolEvent.release ⟨some [Node.elem none 1], some ("p"), some 2, some 3, 7⟩]) :=
  claim_C10_pool_safety _ [] ⟨by simp, by simp⟩

/-- C8: a single leaf child produces exactly the same `toArray` result — in
particular the same assigned key — as the one-element array wrapping it: a
lone child's key is synthesized from index 0 wrapped in the root
separator. -/
theorem claim_C8_key_stability :
    ∀ c : Node, isLeafNode c = true → toArray c = toArray (.arr (.cons c .nil)) := by
  intro c h
  cases c with
  | nullv => rfl
  | undef => rfl
  | bool b => rfl
  | str s => rfl
  | num n => rfl
  | elem k p =>
    cases k with
    | none => rfl
    | some ks =>
      simp [toArray, mapIntoWithKeyPrefixInternal, traverseAllChildren,
        traverseAllChildrenImpl, traverseAllChildrenList, nextNamePfx,
        mapSingleChildIntoContext, leafKey, sepAppend_ne_empty, pushMapped,
        getComponentKey, childKeyEq, isFalsy, Except.map]
      rfl
  | portal k p =>
    cases k with
    | none => rfl
    | some ks => rfl
  | arr l => simp [isLeafNode] at h
  | iterable l => simp [isLeafNode] at h
  | obj ks s => simp [isLeafNode] at h

/-- Witness for C8 at a concrete element with an explicit key: both forms
assign the key `.$k`. -/
theorem claim_C8_key_stability_witness :
    toArray (Node.elem (some ("k")) 3) =
      toArray (.arr (.cons (.elem (some ("k")) 3) .nil)) ∧
    toArray (Node.elem (some ("k")) 3) =
      .ok (.arr (.cons (.elem (some (".$k")) 3) .nil)) :=
  ⟨claim_C8_key_stability (Node.elem (some ("k")) 3) rfl, rfl⟩

/-- The boolean user-key-segment condition in `mapSingleChildIntoContext`
(`mappedChild.key && (!child || child.key !== mappedChild.key)`) computes the
amended segment: present exactly for a non-empty mapped key differing from
the child's key (a falsy child never carries a key, so JS's short-circuit on
`!child` changes nothing). -/
theorem userKeySegment_code_eq (child : Node) (mk : String) :
    (if (mk != "") && (isFalsy child || !childKeyEq child mk)
     then escapeUserProvidedKey mk ++ ("/") else "") =
      userKeySegmentAmended child (some mk) := by
  cases child with
  | nullv =>
    by_cases hmk : mk = "" <;> simp [userKeySegmentAmended, childKeyOpt, isFalsy, childKeyEq, hmk]
  | undef =>
    by_cases hmk : mk = "" <;> simp [userKeySegmentAmended, childKeyOpt, isFalsy, childKeyEq, hmk]
  | bool b =>
    by_cases hmk : mk = "" <;> simp [userKeySegmentAmended, childKeyOpt, isFalsy, childKeyEq, hmk]
  | str s =>
    by_cases hmk : mk = "" <;> simp [userKeySegmentAmended, childKeyOpt, isFalsy, childKeyEq, hmk]
  | num n =>
    by_cases hmk : mk = "" <;> simp [userKeySegmentAmended, childKeyOpt, isFalsy, childKeyEq, hmk]
  | elem k p =>
    cases k with
    | none =>
      by_cases hmk : mk = "" <;> simp [userKeySegmentAmended, childKeyOpt, isFalsy, childKeyEq, hmk]
    | some ck =>
      by_cases hmk : mk = "" <;> by_cases hck : ck = mk <;>
        simp [userKeySegmentAmended, childKeyOpt, isFalsy, childKeyEq, hmk, hck]
  | portal k p =>
    cases k with
    | none =>
      by_cases hmk : mk = "" <;> simp [userKeySegmentAmended, childKeyOpt, isFalsy, childKeyEq, hmk]
    | some ck =>
      by_cases hmk : mk = "" <;> by_cases hck : ck = mk <;>
        simp [userKeySegmentAmended, childKeyOpt, isFalsy, childKeyEq, hmk, hck]
  | arr l =>
    by_cases hmk : mk = "" <;> simp [userKeySegmentAmended, childKeyOpt, isFalsy, childKeyEq, hmk]
  | iterable l =>
    by_cases hmk : mk = "" <;> simp [userKeySegmentAmended, childKeyOpt, isFalsy, childKeyEq, hmk]
  | obj ks s =>
    by_cases hmk : mk = "" <;> simp [userKeySegmentAmended, childKeyOpt, isFalsy, childKeyEq, hmk]

/-- Pushing a mapped element appends exactly one clone whose key follows the
amended user-key-segment rule. -/
theorem pushMapped_elem (keyPfx : String) (child : Node) (k : Option String) (p : Nat)
    (childKey : String) (result : List Node) :
    pushMapped keyPfx child (.elem k p) childKey result =
      result ++ [.elem (some (keyPfx ++ userKeySegmentAmended child k ++ childKey)) p] := by
  cases k with
  | none => rfl
  | some mk =>
    simp only [pushMapped]
    rw [userKeySegment_code_eq]

/-- C3 counterexample: the claim's segment rule fails for a mapped element
whose explicit key is the empty string `""`. The mapped key `""` differs
from the original child's key `"a"`, so the claim demands the segment
`escapeUserProvidedKey("") + "/" = "/"` and output key `/.$a`; the code
treats the falsy key `""` as absent and produces the key `.$a`. -/
theorem claim_C3_counterexample :
    mapChildren (.arr (.cons (.elem (some ("a")) 1) .nil)) (fun _ _ => .elem (some ("")) 2) =
      .ok (.arr (.cons (.elem (some (".$a")) 2) .nil)) ∧
    userKeySegmentSpec (.elem (some ("a")) 1) (some ("")) = ("/") ∧
    ((".$a") : String) ≠ ("") ++ ("/") ++ (".$a") := by
  refine ⟨rfl, ?_, by decide⟩
  simp [userKeySegmentSpec, childKeyOpt, escapeUserProvidedKey, escapeUserChars]

/-- C3 (amended): whenever the map function returns a single element, the
value appended to the output is a clone keyed
`prefix + userKeySegment + pathKey`, where `userKeySegment` is
`escapeUserProvidedKey(mapped.key) + "/"` exactly when the mapped element
carries its own non-empty explicit key that differs from the original
child's key (an empty-string key is treated as absent), and is empty
otherwise. -/
theorem claim_C3_amended :
    ∀ (func : Node → Nat → Node) (keyPfx : String) (st : MapState) (child : Node)
      (childKey : String) (k : Option String) (p : Nat),
      func child st.count = .elem k p →
      mapSingleChildIntoContext func keyPfx st child childKey =
        .ok ⟨st.result ++
            [.elem (some (keyPfx ++ userKeySegmentAmended child k ++ childKey)) p],
          st.count + 1⟩ := by
  intro func keyPfx st child childKey k p h
  simp only [mapSingleChildIntoContext, h]
  simp [pushMapped_elem]

/-- Witness for C3 (amended) at a concrete input: the mapped element carries
its own key `k/m`, giving segment `k//m/`. -/
theorem claim_C3_amended_witness :
    mapSingleChildIntoContext (fun _ _ => .elem (some ("k/m")) 2) ("") ⟨[], 0⟩
      (.elem (some ("a")) 1) (".$a") =
      .ok ⟨[.elem (some ("k//m/.$a")) 2], 1⟩ := by
  have h := claim_C3_amended (fun _ _ => .elem (some ("k/m")) 2) ("") ⟨[], 0⟩
    (.elem (some ("a")) 1) (".$a") (some ("k/m")) 2 rfl
  simpa [userKeySegmentAmended, childKeyOpt, escapeUserProvidedKey, escapeUserChars] using h

/-- `NodeList.ofList` preserves length. -/
theorem NodeList.length_ofList (xs : List Node) :
    NodeList.length (NodeList.ofList xs) = xs.length := by
  induction xs with
  | nil => rfl
  | cons c cs ih => simp [NodeList.ofList, NodeList.length, ih]

/-- `stripList` commutes with `NodeList.ofList`. -/
theorem stripList_ofList (xs : List Node) :
    stripList (NodeList.ofList xs) = NodeList.ofList (xs.map stripKey) := by
  induction xs with
  | nil => rfl
  | cons c cs ih => simp [NodeList.ofList, stripList, ih]

/-- A normalized leaf is a callback leaf. -/
theorem normalizeChild_callbackLeaf (c : Node) (h : isLeafNode c = true) :
    isCallbackLeaf (normalizeChild c) = true := by
  cases c <;> first | rfl | simp [isLeafNode] at h

/-- On a leaf node, `traverseAllChildrenImpl` invokes the callback once on
the normalized child with the computed leaf key and reports count 1. -/
theorem impl_leaf_eq {σ : Type} (cb : σ → Node → String → Except String σ)
    (c : Node) (h : isLeafNode c = true) (nameSoFar : String) (st : σ) :
    traverseAllChildrenImpl cb c nameSoFar st =
      (cb st (normalizeChild c) (leafKey (normalizeChild c) nameSoFar)).map
        (fun st2 => (st2, 1)) := by
  cases c <;> first | rfl | simp [isLeafNode] at h

/-- `mapSingleChildIntoContext` with the identity map function at a callback
leaf: the leaf itself is pushed (the array branch cannot fire). -/
theorem mapSingle_id_leaf (keyPfx : String) (st : MapState) (child : Node)
    (childKey : String) (h : isCallbackLeaf child = true) :
    mapSingleChildIntoContext (fun x _ => x) keyPfx st child childKey =
      .ok ⟨pushMapped keyPfx child child childKey st.result, st.count + 1⟩ := by
  cases child <;> first | rfl | simp [isCallbackLeaf] at h

/-- `mapSingleChildIntoContext` with the singleton-wrapping map function at a
callback leaf: the array branch re-flattens `[child]` with prefix
`escapeUserProvidedKey(childKey) + "/"`, pushing the leaf under the inner
path `SEPARATOR + getComponentKey(child, 0)`. -/
theorem mapSingle_wrap_leaf (keyPfx : String) (st : MapState) (child : Node)
    (childKey : String) (h : isCallbackLeaf child = true) :
    mapSingleChildIntoContext (fun x _ => .arr (.cons x .nil)) keyPfx st child childKey =
      .ok ⟨pushMapped (escapeUserProvidedKey childKey ++ ("/")) child child
        (SEPARATOR ++ getComponentKey child 0) st.result, st.count + 1⟩ := by
  cases child <;> first | rfl | simp [isCallbackLeaf] at h

/-- Pushing the identity image of a callback leaf adds the same stripped
value whatever the prefix and path key are. -/
theorem stripPush (pfx1 pfx2 k1 k2 : String) (child : Node) (r1 r2 : List Node)
    (h : isCallbackLeaf child = true)
    (hr : r1.map stripKey = r2.map stripKey) :
    (pushMapped pfx1 child child k1 r1).map stripKey =
      (pushMapped pfx2 child child k2 r2).map stripKey := by
  cases child with
  | nullv => simpa [pushMapped] using hr
  | str s => simp [pushMapped, stripKey, hr]
  | num n => simp [pushMapped, stripKey, hr]
  | elem k p => simp [pushMapped_elem, stripKey, hr]
  | portal k p => simp [pushMapped, stripKey, hr]
  | undef => simpa [pushMapped] using hr
  | bool b => simp [isCallbackLeaf] at h
  | arr l => simp [isCallbackLeaf] at h
  | iterable l => simp [isCallbackLeaf] at h
  | obj ks s => simp [isCallbackLeaf] at h

/-- Every identity-level traversal either succeeds or fails with an
invalid-child message (the only `invariant` in the traversal). -/
theorem traverseIdent_errOk :
    (∀ c : Node, ∀ keyPfx nameSoFar st,
      (∃ st2, traverseIdentImpl keyPfx c nameSoFar st = .ok st2) ∨
      (∃ ks s, traverseIdentImpl keyPfx c nameSoFar st =
        .error (invalidChildMessage ks s))) ∧
    (∀ l : NodeList, ∀ keyPfx i namePfx st,
      (∃ st2, traverseIdentList keyPfx l i namePfx st = .ok st2) ∨
      (∃ ks s, traverseIdentList keyPfx l i namePfx st =
        .error (invalidChildMessage ks s))) := by
  refine nodeMutualInduction
    (fun c => ∀ keyPfx nameSoFar st,
      (∃ st2, traverseIdentImpl keyPfx c nameSoFar st = .ok st2) ∨
      (∃ ks s, traverseIdentImpl keyPfx c nameSoFar st =
        .error (invalidChildMessage ks s)))
    (fun l => ∀ keyPfx i namePfx st,
      (∃ st2, traverseIdentList keyPfx l i namePfx st = .ok st2) ∨
      (∃ ks s, traverseIdentList keyPfx l i namePfx st =
        .error (invalidChildMessage ks s)))
    ?_ ?_ ?_ ?_ ?_ ?_ ?_ ?_ ?_ ?_ ?_ ?_
  · exact fun _ _ _ => .inl ⟨_, rfl⟩
  · exact fun _ _ _ => .inl ⟨_, rfl⟩
  · exact fun _ _ _ _ => .inl ⟨_, rfl⟩
  · exact fun _ _ _ _ => .inl ⟨_, rfl⟩
  · exact fun _ _ _ _ => .inl ⟨_, rfl⟩
  · exact fun _ _ _ _ _ => .inl ⟨_, rfl⟩
  · exact fun _ _ _ _ _ => .inl ⟨_, rfl⟩
  · exact fun l hl keyPfx nameSoFar st => hl keyPfx 0 (nextNamePfx nameSoFar) st
  · exact fun l hl keyPfx nameSoFar st => hl keyPfx 0 (nextNamePfx nameSoFar) st
  · exact fun ks s _ _ _ => .inr ⟨ks, s, rfl⟩
  · exact fun _ _ _ st => .inl ⟨st, rfl⟩
  · intro c cs hc hcs keyPfx i namePfx st
    rcases hc keyPfx (namePfx ++ getComponentKey c i) st with ⟨st2, h1⟩ | ⟨ks, s, h1⟩
    · rcases hcs keyPfx (i + 1) namePfx st2 with ⟨st3, h2⟩ | ⟨ks, s, h2⟩
      · exact .inl ⟨st3, by simp [traverseIdentList, except_bind_ok, except_bind_err, h1, h2]⟩
      · exact .inr ⟨ks, s, by simp [traverseIdentList, except_bind_ok, except_bind_err, h1, h2]⟩
    · exact .inr ⟨ks, s, by simp [traverseIdentList, except_bind_ok, except_bind_err, h1]⟩

/-- `mapSingleChildIntoContext` either succeeds or fails with an
invalid-child message (via the inner re-flattening of an array-valued map
result). -/
theorem mapSingle_errOk (func : Node → Nat → Node) (keyPfx : String) (st : MapState)
    (child : Node) (childKey : String) :
    (∃ st2, mapSingleChildIntoContext func keyPfx st child childKey = .ok st2) ∨
    (∃ ks s, mapSingleChildIntoContext func keyPfx st child childKey =
      .error (invalidChildMessage ks s)) := by
  simp only [mapSingleChildIntoContext]
  cases hm : func child st.count with
  | arr l =>
    rcases traverseIdent_errOk.2 l (escapeUserProvidedKey childKey ++ ("/")) 0 SEPARATOR
        ⟨st.result, 0⟩ with ⟨st2, h⟩ | ⟨ks, s, h⟩
    · exact .inl ⟨⟨st2.result, st.count + 1⟩, by simp [except_bind_ok, except_bind_err, h]⟩
    · exact .inr ⟨ks, s, by simp [except_bind_ok, except_bind_err, h]⟩
  | nullv => exact .inl ⟨_, rfl⟩
  | undef => exact .inl ⟨_, rfl⟩
  | bool b => exact .inl ⟨_, rfl⟩
  | str s => exact .inl ⟨_, rfl⟩
  | num n => exact .inl ⟨_, rfl⟩
  | elem k p => exact .inl ⟨_, rfl⟩
  | portal k p => exact .inl ⟨_, rfl⟩
  | iterable l => exact .inl ⟨_, rfl⟩
  | obj ks s => exact .inl ⟨_, rfl⟩

/-- A generic traversal whose callback only succeeds or fails with
invalid-child messages itself only succeeds or fails with invalid-child
messages. -/
theorem traverse_errOk {σ : Type} (cb : σ → Node → String → Except String σ)
    (hcb : ∀ st c k, (∃ st2, cb st c k = .ok st2) ∨
      (∃ ks s, cb st c k = .error (invalidChildMessage ks s))) :
    (∀ c : Node, ∀ nameSoFar st,
      (∃ r, traverseAllChildrenImpl cb c nameSoFar st = .ok r) ∨
      (∃ ks s, traverseAllChildrenImpl cb c nameSoFar st =
        .error (invalidChildMessage ks s))) ∧
    (∀ l : NodeList, ∀ i namePfx st,
      (∃ r, traverseAllChildrenList cb l i namePfx st = .ok r) ∨
      (∃ ks s, traverseAllChildrenList cb l i namePfx st =
        .error (invalidChildMessage ks s))) := by
  have leaf : ∀ (c : Node), isLeafNode c = true → ∀ nameSoFar st,
      (∃ r, traverseAllChildrenImpl cb c nameSoFar st = .ok r) ∨
      (∃ ks s, traverseAllChildrenImpl cb c nameSoFar st =
        .error (invalidChildMessage ks s)) := by
    intro c hlf nameSoFar st
    rw [impl_leaf_eq cb c hlf]
    rcases hcb st (normalizeChild c) (leafKey (normalizeChild c) nameSoFar) with
      ⟨st2, h⟩ | ⟨ks, s, h⟩
    · exact .inl ⟨(st2, 1), by simp [Except.map, h]⟩
    · exact .inr ⟨ks, s, by simp [Except.map, h]⟩
  refine nodeMutualInduction
    (fun c => ∀ nameSoFar st,
      (∃ r, traverseAllChildrenImpl cb c nameSoFar st = .ok r) ∨
      (∃ ks s, traverseAllChildrenImpl cb c nameSoFar st =
        .error (invalidChildMessage ks s)))
    (fun l => ∀ i namePfx st,
      (∃ r, traverseAllChildrenList cb l i namePfx st = .ok r) ∨
      (∃ ks s, traverseAllChildrenList cb l i namePfx st =
        .error (invalidChildMessage ks s)))
    (leaf _ rfl) (leaf _ rfl) (fun b => leaf _ rfl) (fun s => leaf _ rfl)
    (fun n => leaf _ rfl) (fun k p => leaf _ rfl) (fun k p => leaf _ rfl)
    ?_ ?_ ?_ ?_ ?_
  · exact fun l hl nameSoFar st => hl 0 (nextNamePfx nameSoFar) st
  · exact fun l hl nameSoFar st => hl 0 (nextNamePfx nameSoFar) st
  · exact fun ks s _ _ => .inr ⟨ks, s, rfl⟩
  · exact fun _ _ st => .inl ⟨(st, 0), rfl⟩
  · intro c cs hc hcs i namePfx st
    rcases hc (namePfx ++ getComponentKey c i) st with ⟨r1, h1⟩ | ⟨ks, s, h1⟩
    · rcases hcs (i + 1) namePfx r1.1 with ⟨r2, h2⟩ | ⟨ks, s, h2⟩
      · exact .inl ⟨(r2.1, r1.2 + r2.2), by simp [traverseAllChildrenList, except_bind_ok, except_bind_err, h1, h2]⟩
      · exact .inr ⟨ks, s, by simp [traverseAllChildrenList, except_bind_ok, except_bind_err, h1, h2]⟩
    · exact .inr ⟨ks, s, by simp [traverseAllChildrenList, except_bind_ok, except_bind_err, h1]⟩

/-- If the tree contains an invalid object in traversal position, a generic
traversal (with a callback that itself only succeeds or fails with
invalid-child messages) fails with an invalid-child message. -/
theorem traverse_containsObj {σ : Type} (cb : σ → Node → String → Except String σ)
    (hcb : ∀ st c k, (∃ st2, cb st c k = .ok st2) ∨
      (∃ ks s, cb st c k = .error (invalidChildMessage ks s))) :
    (∀ c : Node, containsObj c = true → ∀ nameSoFar st,
      ∃ ks s, traverseAllChildrenImpl cb c nameSoFar st =
        .error (invalidChildMessage ks s)) ∧
    (∀ l : NodeList, containsObjList l = true → ∀ i namePfx st,
      ∃ ks s, traverseAllChildrenList cb l i namePfx st =
        .error (invalidChildMessage ks s)) := by
  refine nodeMutualInduction
    (fun c => containsObj c = true → ∀ nameSoFar st,
      ∃ ks s, traverseAllChildrenImpl cb c nameSoFar st =
        .error (invalidChildMessage ks s))
    (fun l => containsObjList l = true → ∀ i namePfx st,
      ∃ ks s, traverseAllChildrenList cb l i namePfx st =
        .error (invalidChildMessage ks s))
    ?_ ?_ ?_ ?_ ?_ ?_ ?_ ?_ ?_ ?_ ?_ ?_
  · exact fun h => absurd h (by simp [containsObj])
  · exact fun h => absurd h (by simp [containsObj])
  · exact fun b h => absurd h (by simp [containsObj])
  · exact fun s h => absurd h (by simp [containsObj])
  · exact fun n h => absurd h (by simp [containsObj])
  · exact fun k p h => absurd h (by simp [containsObj])
  · exact fun k p h => absurd h (by simp [containsObj])
  · exact fun l hl h nameSoFar st => hl (by simpa [containsObj] using h) 0 (nextNamePfx nameSoFar) st
  · exact fun l hl h nameSoFar st => hl (by simpa [containsObj] using h) 0 (nextNamePfx nameSoFar) st
  · exact fun ks s _ _ _ => ⟨ks, s, rfl⟩
  · exact fun h => absurd h (by simp [containsObjList])
  · intro c cs hc hcs h i namePfx st
    have h2 := (by simpa [containsObjList] using h :
      containsObj c = true ∨ containsObjList cs = true)
    rcases h2 with h2 | h2
    · obtain ⟨ks, s, h1⟩ := hc h2 (namePfx ++ getComponentKey c i) st
      exact ⟨ks, s, by simp [traverseAllChildrenList, except_bind_ok, except_bind_err, h1]⟩
    · rcases (traverse_errOk cb hcb).1 c (namePfx ++ getComponentKey c i) st with
        ⟨r1, h1⟩ | ⟨ks, s, h1⟩
      · obtain ⟨ks, s, hrest⟩ := hcs h2 (i + 1) namePfx r1.1
        exact ⟨ks, s, by simp [traverseAllChildrenList, except_bind_ok, except_bind_err, h1, hrest]⟩
      · exact ⟨ks, s, by simp [traverseAllChildrenList, except_bind_ok, except_bind_err, h1]⟩

/-- `traverseAllChildren` on a tree containing an invalid object fails with
an invalid-child message (for a callback that itself only succeeds or fails
with invalid-child messages). -/
theorem traverseAllChildren_of_containsObj {σ : Type}
    (cb : σ → Node → String → Except String σ)
    (hcb : ∀ st c k, (∃ st2, cb st c k = .ok st2) ∨
      (∃ ks s, cb st c k = .error (invalidChildMessage ks s))) :
    ∀ (T : Node) (st : σ), containsObj T = true →
      ∃ ks s, traverseAllChildren cb T st = .error (invalidChildMessage ks s) := by
  intro T st h
  cases T with
  | nullv => exact absurd h (by simp [containsObj])
  | undef => exact absurd h (by simp [containsObj])
  | bool b => exact absurd h (by simp [containsObj])
  | str s => exact absurd h (by simp [containsObj])
  | num n => exact absurd h (by simp [containsObj])
  | elem k p => exact absurd h (by simp [containsObj])
  | portal k p => exact absurd h (by simp [containsObj])
  | arr l => exact (traverse_containsObj cb hcb).1 _ h ("") st
  | iterable l => exact (traverse_containsObj cb hcb).1 _ h ("") st
  | obj ks s => exact (traverse_containsObj cb hcb).1 _ h ("") st

/-- `mapIntoWithKeyPrefixInternal` on a tree containing an invalid object
fails with an invalid-child message, for any map function. -/
theorem mapInto_of_containsObj (func : Node → Nat → Node) :
    ∀ (T : Node) (array : List Node) (pfx : Option String), containsObj T = true →
      ∃ ks s, mapIntoWithKeyPrefixInternal T array pfx func =
        .error (invalidChildMessage ks s) := by
  intro T array pfx h
  cases pfx with
  | none =>
    obtain ⟨ks, s, he⟩ := traverseAllChildren_of_containsObj
      (mapSingleChildIntoContext func ("")) (fun st c k => mapSingle_errOk func _ st c k)
      T ⟨array, 0⟩ h
    exact ⟨ks, s, by simp [mapIntoWithKeyPrefixInternal, he, Except.map]⟩
  | some p =>
    obtain ⟨ks, s, he⟩ := traverseAllChildren_of_containsObj
      (mapSingleChildIntoContext func (escapeUserProvidedKey p ++ ("/")))
      (fun st c k => mapSingle_errOk func _ st c k) T ⟨array, 0⟩ h
    exact ⟨ks, s, by simp [mapIntoWithKeyPrefixInternal, he, Except.map]⟩

/-- C6: every Child Operation — count, forEach, map, toArray — applied to a
tree containing an invalid object in a leaf (traversal) position fails with
the fatal invalid-child error; the message lists the property names of a
plain object (`{x: 1}` yields a message containing `x` between braces) and
the stringification of any other object. -/
theorem claim_C6_invalid_object :
    (∀ T : Node, containsObj T = true →
      ∃ ks s, countChildren T = .error (invalidChildMessage ks s)) ∧
    (∀ (T : Node) (func : Node → Nat → Node), containsObj T = true →
      ∃ ks s, forEachChildren T func = .error (invalidChildMessage ks s)) ∧
    (∀ (T : Node) (func : Node → Nat → Node), containsObj T = true →
      ∃ ks s, mapChildren T func = .error (invalidChildMessage ks s)) ∧
    (∀ T : Node, containsObj T = true →
      ∃ ks s, toArray T = .error (invalidChildMessage ks s)) ∧
    countChildren (.arr (.cons (.str ("a")) (.cons (.obj [("x")] ("[object Object]")) .nil))) =
      .error ("Objects are not valid as a React child (found: object with keys \x7bx\x7d).") ∧
    invalidChildMessage [("x")] ("[object Object]") =
      ("Objects are not valid as a React child (found: object with keys \x7b") ++ ("x") ++
        ("\x7d).") ∧
    countChildren (.arr (.cons (.obj [("x")] ("Wed Oct 01 2025")) .nil)) =
      .error ("Objects are not valid as a React child (found: Wed Oct 01 2025).") := by
  refine ⟨?_, ?_, ?_, ?_, rfl, rfl, rfl⟩
  · intro T h
    obtain ⟨ks, s, he⟩ := traverseAllChildren_of_containsObj
      (fun (u : Unit) _ _ => Except.ok u) (fun st _ _ => .inl ⟨st, rfl⟩) T () h
    exact ⟨ks, s, by simp [countChildren, he, Except.map]⟩
  · intro T func h
    obtain ⟨ks, s, he⟩ := traverseAllChildren_of_containsObj
      (forEachSingleChild func) (fun st c k => .inl ⟨st + 1, rfl⟩) T 0 h
    exact ⟨ks, s, by simp [forEachChildren, he, Except.map]⟩
  · intro T func h
    cases T with
    | nullv => exact absurd h (by simp [containsObj])
    | undef => exact absurd h (by simp [containsObj])
    | bool b => exact absurd h (by simp [containsObj])
    | str s => exact absurd h (by simp [containsObj])
    | num n => exact absurd h (by simp [containsObj])
    | elem k p => exact absurd h (by simp [containsObj])
    | portal k p => exact absurd h (by simp [containsObj])
    | arr l =>
      obtain ⟨ks, s, he⟩ := mapInto_of_containsObj func _ [] none h
      exact ⟨ks, s, by simp [mapChildren, he, Except.map]⟩
    | iterable l =>
      obtain ⟨ks, s, he⟩ := mapInto_of_containsObj func _ [] none h
      exact ⟨ks, s, by simp [mapChildren, he, Except.map]⟩
    | obj ks0 s0 =>
      obtain ⟨ks, s, he⟩ := mapInto_of_containsObj func _ [] none h
      exact ⟨ks, s, by simp [mapChildren, he, Except.map]⟩
  · intro T h
    obtain ⟨ks, s, he⟩ := mapInto_of_containsObj (fun child _ => child) T [] none h
    exact ⟨ks, s, by simp [toArray, he, Except.map]⟩

/-- Witness for C6 at the concrete tree `[{x: 1}]`. -/
theorem claim_C6_invalid_object_witness :
    (∃ ks s, countChildren (.arr (.cons (.obj [("x")] ("[object Object]")) .nil)) =
      .error (invalidChildMessage ks s)) ∧
    (∃ ks s, toArray (.arr (.cons (.obj [("x")] ("[object Object]")) .nil)) =
      .error (invalidChildMessage ks s)) :=
  ⟨claim_C6_invalid_object.1 _ rfl, claim_C6_invalid_object.2.2.2.1 _ rfl⟩

/-- Pushing the identity image of an element appends one clone keyed
`keyPfx ++ childKey`: the mapped element's key equals the child's own key, so
no user-key segment is inserted. -/
theorem pushMapped_self_elem (keyPfx : String) (k : Option String) (p : Nat)
    (childKey : String) (result : List Node) :
    pushMapped keyPfx (.elem k p) (.elem k p) childKey result =
      result ++ [.elem (some (keyPfx ++ userKeySegmentAmended (.elem k p) k ++ childKey)) p] :=
  pushMapped_elem keyPfx (.elem k p) k p childKey result

/-- Relation between the counting traversal (`countChildren`'s no-op
callback) and the identity-mapping traversal (`toArray`'s callback): on a
tree without nullish leaves, both fail identically, and on success the map
traversal appends exactly `n` nodes for a count of `n`. -/
theorem count_vs_mapId :
    (∀ c : Node, hasNullishLeaf c = false → ∀ nameSoFar (st : MapState),
      (∀ e, traverseAllChildrenImpl (fun (u : Unit) _ _ => Except.ok u) c nameSoFar () =
          .error e →
        traverseAllChildrenImpl (mapSingleChildIntoContext (fun x _ => x) ("")) c nameSoFar st =
          .error e) ∧
      (∀ n, traverseAllChildrenImpl (fun (u : Unit) _ _ => Except.ok u) c nameSoFar () =
          .ok ((), n) →
        ∃ res : List Node,
          traverseAllChildrenImpl (mapSingleChildIntoContext (fun x _ => x) ("")) c nameSoFar
              st = .ok (⟨st.result ++ res, st.count + n⟩, n) ∧ res.length = n)) ∧
    (∀ l : NodeList, hasNullishLeafList l = false → ∀ i namePfx (st : MapState),
      (∀ e, traverseAllChildrenList (fun (u : Unit) _ _ => Except.ok u) l i namePfx () =
          .error e →
        traverseAllChildrenList (mapSingleChildIntoContext (fun x _ => x) ("")) l i namePfx st =
          .error e) ∧
      (∀ n, traverseAllChildrenList (fun (u : Unit) _ _ => Except.ok u) l i namePfx () =
          .ok ((), n) →
        ∃ res : List Node,
          traverseAllChildrenList (mapSingleChildIntoContext (fun x _ => x) ("")) l i namePfx
              st = .ok (⟨st.result ++ res, st.count + n⟩, n) ∧ res.length = n)) := by
  refine nodeMutualInduction
    (fun c => hasNullishLeaf c = false → ∀ nameSoFar (st : MapState),
      (∀ e, traverseAllChildrenImpl (fun (u : Unit) _ _ => Except.ok u) c nameSoFar () =
          .error e →
        traverseAllChildrenImpl (mapSingleChildIntoContext (fun x _ => x) ("")) c nameSoFar st =
          .error e) ∧
      (∀ n, traverseAllChildrenImpl (fun (u : Unit) _ _ => Except.ok u) c nameSoFar () =
          .ok ((), n) →
        ∃ res : List Node,
          traverseAllChildrenImpl (mapSingleChildIntoContext (fun x _ => x) ("")) c nameSoFar
              st = .ok (⟨st.result ++ res, st.count + n⟩, n) ∧ res.length = n))
    (fun l => hasNullishLeafList l = false → ∀ i namePfx (st : MapState),
      (∀ e, traverseAllChildrenList (fun (u : Unit) _ _ => Except.ok u) l i namePfx () =
          .error e →
        traverseAllChildrenList (mapSingleChildIntoContext (fun x _ => x) ("")) l i namePfx st =
          .error e) ∧
      (∀ n, traverseAllChildrenList (fun (u : Unit) _ _ => Except.ok u) l i namePfx () =
          .ok ((), n) →
        ∃ res : List Node,
          traverseAllChildrenList (mapSingleChildIntoContext (fun x _ => x) ("")) l i namePfx
              st = .ok (⟨st.result ++ res, st.count + n⟩, n) ∧ res.length = n))
    ?_ ?_ ?_ ?_ ?_ ?_ ?_ ?_ ?_ ?_ ?_ ?_
  · exact fun h => absurd h (by simp [hasNullishLeaf])
  · exact fun h => absurd h (by simp [hasNullishLeaf])
  · exact fun b h => absurd h (by simp [hasNullishLeaf])
  · -- str
    intro s _h nameSoFar st
    refine ⟨fun e he => Except.noConfusion he, fun n hn => ?_⟩
    have hn' : Except.ok ((() : Unit), 1) = Except.ok ((() : Unit), n) := hn
    injection hn' with h2
    have h3 : (1 : Nat) = n := congrArg Prod.snd h2
    subst h3
    exact ⟨[.str s], rfl, rfl⟩
  · -- num
    intro n0 _h nameSoFar st
    refine ⟨fun e he => Except.noConfusion he, fun n hn => ?_⟩
    have hn' : Except.ok ((() : Unit), 1) = Except.ok ((() : Unit), n) := hn
    injection hn' with h2
    have h3 : (1 : Nat) = n := congrArg Prod.snd h2
    subst h3
    exact ⟨[.num n0], rfl, rfl⟩
  · -- elem
    intro k p _h nameSoFar st
    refine ⟨fun e he => Except.noConfusion he, fun n hn => ?_⟩
    have hn' : Except.ok ((() : Unit), 1) = Except.ok ((() : Unit), n) := hn
    injection hn' with h2
    have h3 : (1 : Nat) = n := congrArg Prod.snd h2
    subst h3
    refine ⟨[.elem (some (("") ++ userKeySegmentAmended (.elem k p) k ++
      leafKey (.elem k p) nameSoFar)) p], ?_, rfl⟩
    show (mapSingleChildIntoContext (fun x _ => x) ("") st (.elem k p)
        (leafKey (.elem k p) nameSoFar)).map (fun st2 => (st2, 1)) = _
    rw [mapSingle_id_leaf ("") st (.elem k p) (leafKey (.elem k p) nameSoFar) rfl,
      pushMapped_self_elem]
    rfl
  · -- portal
    intro k p _h nameSoFar st
    refine ⟨fun e he => Except.noConfusion he, fun n hn => ?_⟩
    have hn' : Except.ok ((() : Unit), 1) = Except.ok ((() : Unit), n) := hn
    injection hn' with h2
    have h3 : (1 : Nat) = n := congrArg Prod.snd h2
    subst h3
    exact ⟨[.portal k p], rfl, rfl⟩
  · -- arr
    intro l hl h nameSoFar st
    exact hl (by simpa [hasNullishLeaf] using h) 0 (nextNamePfx nameSoFar) st
  · -- iterable
    intro l hl h nameSoFar st
    exact hl (by simpa [hasNullishLeaf] using h) 0 (nextNamePfx nameSoFar) st
  · -- obj
    intro ks s _h nameSoFar st
    refine ⟨fun e he => ?_, fun n hn => Except.noConfusion hn⟩
    have he' : Except.error (invalidChildMessage ks s) = Except.error e := he
    injection he' with h2
    subst h2
    rfl
  · -- nil
    intro _h i namePfx st
    refine ⟨fun e he => Except.noConfusion he, fun n hn => ?_⟩
    have hn' : Except.ok ((() : Unit), 0) = Except.ok ((() : Unit), n) := hn
    injection hn' with h2
    have h3 : (0 : Nat) = n := congrArg Prod.snd h2
    subst h3
    refine ⟨[], ?_, rfl⟩
    simp
    rfl
  · -- cons
    intro c cs hc hcs h i namePfx st
    have h1 : hasNullishLeaf c = false ∧ hasNullishLeafList cs = false := by
      simpa [hasNullishLeafList] using h
    constructor
    · intro e he
      cases hcr : traverseAllChildrenImpl (fun (u : Unit) _ _ => Except.ok u) c
          (namePfx ++ getComponentKey c i) () with
      | error e1 =>
        simp only [traverseAllChildrenList, hcr, except_bind_err] at he
        injection he with he'
        subst he'
        have hm1 := (hc h1.1 (namePfx ++ getComponentKey c i) st).1 e1 hcr
        simp [traverseAllChildrenList, hm1, except_bind_err]
      | ok r1 =>
        obtain ⟨u, n1⟩ := r1
        cases u
        obtain ⟨res1, hm1, _⟩ := (hc h1.1 (namePfx ++ getComponentKey c i) st).2 n1 hcr
        simp only [traverseAllChildrenList, hcr, except_bind_ok] at he
        cases hcs' : traverseAllChildrenList (fun (u : Unit) _ _ => Except.ok u) cs (i + 1)
            namePfx () with
        | error e2 =>
          simp only [hcs', except_bind_err] at he
          injection he with he'
          subst he'
          have hm2 := (hcs h1.2 (i + 1) namePfx ⟨st.result ++ res1, st.count + n1⟩).1 e2 hcs'
          simp [traverseAllChildrenList, hm1, except_bind_ok, hm2, except_bind_err]
        | ok r2 =>
          simp only [hcs', except_bind_ok] at he
          exact Except.noConfusion he
    · intro n hn
      cases hcr : traverseAllChildrenImpl (fun (u : Unit) _ _ => Except.ok u) c
          (namePfx ++ getComponentKey c i) () with
      | error e1 =>
        simp only [traverseAllChildrenList, hcr, except_bind_err] at hn
        exact Except.noConfusion hn
      | ok r1 =>
        obtain ⟨u, n1⟩ := r1
        cases u
        obtain ⟨res1, hm1, hlen1⟩ := (hc h1.1 (namePfx ++ getComponentKey c i) st).2 n1 hcr
        simp only [traverseAllChildrenList, hcr, except_bind_ok] at hn
        cases hcs' : traverseAllChildrenList (fun (u : Unit) _ _ => Except.ok u) cs (i + 1)
            namePfx () with
        | error e2 =>
          simp only [hcs', except_bind_err] at hn
          exact Except.noConfusion hn
        | ok r2 =>
          obtain ⟨u2, n2⟩ := r2
          cases u2
          obtain ⟨res2, hm2, hlen2⟩ :=
            (hcs h1.2 (i + 1) namePfx ⟨st.result ++ res1, st.count + n1⟩).2 n2 hcs'
          simp only [hcs', except_bind_ok] at hn
          have hn' : Except.ok ((() : Unit), n1 + n2) = Except.ok ((() : Unit), n) := hn
          injection hn' with h2
          have h3 : n1 + n2 = n := congrArg Prod.snd h2
          subst h3
          refine ⟨res1 ++ res2, ?_, by simp [hlen1, hlen2]⟩
          simp only [traverseAllChildrenList, hm1, except_bind_ok, hm2]
          simp [List.append_assoc, Nat.add_assoc]

/-- C1 counterexample: on `[a, null, b]` (elements `a`, `b`), `countChildren`
returns 3 but `toArray` returns a 2-element sequence: nullish leaves are
counted yet dropped from the array, so
`countChildren(T) = length(toArray(T))` fails. -/
theorem claim_C1_counterexample :
    countChildren (.arr (.cons (.elem none 1) (.cons .nullv (.cons (.elem none 2) .nil)))) =
      .ok 3 ∧
    toArray (.arr (.cons (.elem none 1) (.cons .nullv (.cons (.elem none 2) .nil)))) =
      .ok (.arr (.cons (.elem (some (".0")) 1) (.cons (.elem (some (".2")) 2) .nil))) ∧
    NodeList.length (.cons (.elem (some (".0")) 1) (.cons (.elem (some (".2")) 2) .nil)) = 2 ∧
    (3 : Nat) ≠ 2 :=
  ⟨rfl, rfl, rfl, by decide⟩

/-- C1 (amended): for every tree with no `null`/`undefined`/boolean leaf,
`countChildren(T)` equals the length of `toArray(T)`; in general
`countChildren` additionally counts each nullish leaf, which `toArray`
drops. -/
theorem claim_C1_amended :
    ∀ (T : Node) (n : Nat) (l : NodeList), hasNullishLeaf T = false →
      countChildren T = .ok n → toArray T = .ok (.arr l) → NodeList.length l = n := by
  intro T n l h hc ht
  have hTA1 : traverseAllChildren (fun (u : Unit) _ _ => Except.ok u) T () =
      traverseAllChildrenImpl (fun (u : Unit) _ _ => Except.ok u) T ("") () := by
    cases T <;> first | rfl | exact absurd h (by simp [hasNullishLeaf])
  have hTA2 : traverseAllChildren (mapSingleChildIntoContext (fun x _ => x) ("")) T
        ⟨[], 0⟩ =
      traverseAllChildrenImpl (mapSingleChildIntoContext (fun x _ => x) ("")) T ("")
        ⟨[], 0⟩ := by
    cases T <;> first | rfl | exact absurd h (by simp [hasNullishLeaf])
  unfold countChildren at hc
  rw [hTA1] at hc
  cases him : traverseAllChildrenImpl (fun (u : Unit) _ _ => Except.ok u) T ("") () with
  | error e => rw [him] at hc; exact absurd hc (by simp [Except.map])
  | ok r =>
    obtain ⟨u, n2⟩ := r
    cases u
    rw [him] at hc
    have hc' : n2 = n := by simpa [Except.map] using hc
    subst hc'
    obtain ⟨res, hm, hlen⟩ := (count_vs_mapId.1 T h ("") ⟨[], 0⟩).2 n2 him
    simp only [toArray, mapIntoWithKeyPrefixInternal] at ht
    rw [hTA2, hm] at ht
    have hl : NodeList.ofList res = l := by simpa [Except.map] using ht
    rw [← hl, NodeList.length_ofList, hlen]

/-- Witness for C1 (amended) on the tree `["a", element]`: both count and
array length are 2. -/
theorem claim_C1_amended_witness :
    NodeList.length (.cons (.str ("a")) (.cons (.elem (some (".1")) 1) .nil)) = 2 :=
  claim_C1_amended (.arr (.cons (.str ("a")) (.cons (.elem none 1) .nil))) 2
    (.cons (.str ("a")) (.cons (.elem (some (".1")) 1) .nil)) rfl rfl rfl

/-- Leaf step of the wrap-vs-identity comparison: at a callback leaf, the
singleton-wrapping traversal and the identity traversal append the same
node up to element re-keying. -/
theorem wrap_vs_id_leaf (c : Node) (h : isCallbackLeaf c = true) (nameSoFar : String)
    (st1 st2 : MapState) (hst : st1.result.map stripKey = st2.result.map stripKey) :
    (∀ e, traverseAllChildrenImpl
        (mapSingleChildIntoContext (fun x _ => .arr (.cons x .nil)) ("")) c nameSoFar st1 =
        .error e →
      traverseAllChildrenImpl (mapSingleChildIntoContext (fun x _ => x) ("")) c nameSoFar
        st2 = .error e) ∧
    (∀ r1, traverseAllChildrenImpl
        (mapSingleChildIntoContext (fun x _ => .arr (.cons x .nil)) ("")) c nameSoFar st1 =
        .ok r1 →
      ∃ r2, traverseAllChildrenImpl (mapSingleChildIntoContext (fun x _ => x) ("")) c
          nameSoFar st2 = .ok r2 ∧
        r1.1.result.map stripKey = r2.1.result.map stripKey) := by
  have hlf : isLeafNode c = true := by
    cases c <;> first | rfl | simp [isCallbackLeaf] at h
  have hnm : normalizeChild c = c := by
    cases c <;> first | rfl | simp [isCallbackLeaf] at h
  have hW : traverseAllChildrenImpl
      (mapSingleChildIntoContext (fun x _ => .arr (.cons x .nil)) ("")) c nameSoFar st1 =
      .ok (⟨pushMapped (escapeUserProvidedKey (leafKey c nameSoFar) ++ ("/")) c c
        (SEPARATOR ++ getComponentKey c 0) st1.result, st1.count + 1⟩, 1) := by
    rw [impl_leaf_eq _ c hlf, hnm, mapSingle_wrap_leaf ("") st1 c (leafKey c nameSoFar) h]
    rfl
  have hI : traverseAllChildrenImpl (mapSingleChildIntoContext (fun x _ => x) ("")) c
      nameSoFar st2 =
      .ok (⟨pushMapped ("") c c (leafKey c nameSoFar) st2.result, st2.count + 1⟩, 1) := by
    rw [impl_leaf_eq _ c hlf, hnm, mapSingle_id_leaf ("") st2 c (leafKey c nameSoFar) h]
    rfl
  constructor
  · intro e he
    rw [hW] at he
    exact Except.noConfusion he
  · intro r1 h1
    rw [hW] at h1
    injection h1 with h2
    subst h2
    exact ⟨(⟨pushMapped ("") c c (leafKey c nameSoFar) st2.result, st2.count + 1⟩, 1), hI,
      stripPush _ _ _ _ c st1.result st2.result h hst⟩

/-- Relation between the singleton-wrapping map traversal
(`func = x => [x]`) and the identity map traversal: they fail identically
and, on success, produce outputs equal up to element re-keying, with no leaf
duplicated, dropped or reordered. -/
theorem wrap_vs_id :
    (∀ c : Node, ∀ nameSoFar (st1 st2 : MapState),
      st1.result.map stripKey = st2.result.map stripKey →
      (∀ e, traverseAllChildrenImpl
          (mapSingleChildIntoContext (fun x _ => .arr (.cons x .nil)) ("")) c nameSoFar
          st1 = .error e →
        traverseAllChildrenImpl (mapSingleChildIntoContext (fun x _ => x) ("")) c nameSoFar
          st2 = .error e) ∧
      (∀ r1, traverseAllChildrenImpl
          (mapSingleChildIntoContext (fun x _ => .arr (.cons x .nil)) ("")) c nameSoFar
          st1 = .ok r1 →
        ∃ r2, traverseAllChildrenImpl (mapSingleChildIntoContext (fun x _ => x) ("")) c
            nameSoFar st2 = .ok r2 ∧
          r1.1.result.map stripKey = r2.1.result.map stripKey)) ∧
    (∀ l : NodeList, ∀ i namePfx (st1 st2 : MapState),
      st1.result.map stripKey = st2.result.map stripKey →
      (∀ e, traverseAllChildrenList
          (mapSingleChildIntoContext (fun x _ => .arr (.cons x .nil)) ("")) l i namePfx
          st1 = .error e →
        traverseAllChildrenList (mapSingleChildIntoContext (fun x _ => x) ("")) l i namePfx
          st2 = .error e) ∧
      (∀ r1, traverseAllChildrenList
          (mapSingleChildIntoContext (fun x _ => .arr (.cons x .nil)) ("")) l i namePfx
          st1 = .ok r1 →
        ∃ r2, traverseAllChildrenList (mapSingleChildIntoContext (fun x _ => x) ("")) l i
            namePfx st2 = .ok r2 ∧
          r1.1.result.map stripKey = r2.1.result.map stripKey)) := by
  refine nodeMutualInduction
    (fun c => ∀ nameSoFar (st1 st2 : MapState),
      st1.result.map stripKey = st2.result.map stripKey →
      (∀ e, traverseAllChildrenImpl
          (mapSingleChildIntoContext (fun x _ => .arr (.cons x .nil)) ("")) c nameSoFar
          st1 = .error e →
        traverseAllChildrenImpl (mapSingleChildIntoContext (fun x _ => x) ("")) c nameSoFar
          st2 = .error e) ∧
      (∀ r1, traverseAllChildrenImpl
          (mapSingleChildIntoContext (fun x _ => .arr (.cons x .nil)) ("")) c nameSoFar
          st1 = .ok r1 →
        ∃ r2, traverseAllChildrenImpl (mapSingleChildIntoContext (fun x _ => x) ("")) c
            nameSoFar st2 = .ok r2 ∧
          r1.1.result.map stripKey = r2.1.result.map stripKey))
    (fun l => ∀ i namePfx (st1 st2 : MapState),
      st1.result.map stripKey = st2.result.map stripKey →
      (∀ e, traverseAllChildrenList
          (mapSingleChildIntoContext (fun x _ => .arr (.cons x .nil)) ("")) l i namePfx
          st1 = .error e →
        traverseAllChildrenList (mapSingleChildIntoContext (fun x _ => x) ("")) l i namePfx
          st2 = .error e) ∧
      (∀ r1, traverseAllChildrenList
          (mapSingleChildIntoContext (fun x _ => .arr (.cons x .nil)) ("")) l i namePfx
          st1 = .ok r1 →
        ∃ r2, traverseAllChildrenList (mapSingleChildIntoContext (fun x _ => x) ("")) l i
            namePfx st2 = .ok r2 ∧
          r1.1.result.map stripKey = r2.1.result.map stripKey))
    ?_ ?_ ?_ ?_ ?_ ?_ ?_ ?_ ?_ ?_ ?_ ?_
  · exact fun nameSoFar st1 st2 hst => wrap_vs_id_leaf .nullv rfl nameSoFar st1 st2 hst
  · exact fun nameSoFar st1 st2 hst => wrap_vs_id_leaf .nullv rfl nameSoFar st1 st2 hst
  · exact fun b nameSoFar st1 st2 hst => wrap_vs_id_leaf .nullv rfl nameSoFar st1 st2 hst
  · exact fun s nameSoFar st1 st2 hst => wrap_vs_id_leaf (.str s) rfl nameSoFar st1 st2 hst
  · exact fun n nameSoFar st1 st2 hst => wrap_vs_id_leaf (.num n) rfl nameSoFar st1 st2 hst
  · exact fun k p nameSoFar st1 st2 hst =>
      wrap_vs_id_leaf (.elem k p) rfl nameSoFar st1 st2 hst
  · exact fun k p nameSoFar st1 st2 hst =>
      wrap_vs_id_leaf (.portal k p) rfl nameSoFar st1 st2 hst
  · exact fun l hl nameSoFar st1 st2 hst => hl 0 (nextNamePfx nameSoFar) st1 st2 hst
  · exact fun l hl nameSoFar st1 st2 hst => hl 0 (nextNamePfx nameSoFar) st1 st2 hst
  · -- obj
    intro ks s nameSoFar st1 st2 _hst
    exact ⟨fun e he => he, fun r1 h1 => Except.noConfusion h1⟩
  · -- nil
    intro i namePfx st1 st2 hst
    refine ⟨fun e he => Except.noConfusion he, fun r1 h1 => ?_⟩
    have h1' : Except.ok ((st1, 0) : MapState × Nat) = Except.ok r1 := h1
    injection h1' with h2
    subst h2
    exact ⟨(st2, 0), rfl, hst⟩
  · -- cons
    intro c cs hc hcs i namePfx st1 st2 hst
    constructor
    · intro e he
      cases hw1 : traverseAllChildrenImpl
          (mapSingleChildIntoContext (fun x _ => .arr (.cons x .nil)) ("")) c
          (namePfx ++ getComponentKey c i) st1 with
      | error e1 =>
        simp only [traverseAllChildrenList, hw1, except_bind_err] at he
        injection he with he'
        subst he'
        have hi1 := (hc (namePfx ++ getComponentKey c i) st1 st2 hst).1 e1 hw1
        simp [traverseAllChildrenList, hi1, except_bind_err]
      | ok r1 =>
        obtain ⟨r1i, hi1, hstrip1⟩ := (hc (namePfx ++ getComponentKey c i) st1 st2 hst).2
          r1 hw1
        simp only [traverseAllChildrenList, hw1, except_bind_ok] at he
        cases hw2 : traverseAllChildrenList
            (mapSingleChildIntoContext (fun x _ => .arr (.cons x .nil)) ("")) cs (i + 1)
            namePfx r1.1 with
        | error e2 =>
          simp only [hw2, except_bind_err] at he
          injection he with he'
          subst he'
          have hi2 := (hcs (i + 1) namePfx r1.1 r1i.1 hstrip1).1 e2 hw2
          simp [traverseAllChildrenList, hi1, except_bind_ok, hi2, except_bind_err]
        | ok r2 =>
          simp only [hw2, except_bind_ok] at he
          exact Except.noConfusion he
    · intro r hr
      cases hw1 : traverseAllChildrenImpl
          (mapSingleChildIntoContext (fun x _ => .arr (.cons x .nil)) ("")) c
          (namePfx ++ getComponentKey c i) st1 with
      | error e1 =>
        simp only [traverseAllChildrenList, hw1, except_bind_err] at hr
        exact Except.noConfusion hr
      | ok r1 =>
        obtain ⟨r1i, hi1, hstrip1⟩ := (hc (namePfx ++ getComponentKey c i) st1 st2 hst).2
          r1 hw1
        simp only [traverseAllChildrenList, hw1, except_bind_ok] at hr
        cases hw2 : traverseAllChildrenList
            (mapSingleChildIntoContext (fun x _ => .arr (.cons x .nil)) ("")) cs (i + 1)
            namePfx r1.1 with
        | error e2 =>
          simp only [hw2, except_bind_err] at hr
          exact Except.noConfusion hr
        | ok r2 =>
          obtain ⟨r2i, hi2, hstrip2⟩ := (hcs (i + 1) namePfx r1.1 r1i.1 hstrip1).2 r2 hw2
          simp only [hw2, except_bind_ok] at hr
          injection hr with hr'
          subst hr'
          refine ⟨(r2i.1, r1i.2 + r2i.2), ?_, hstrip2⟩
          simp [traverseAllChildrenList, hi1, except_bind_ok, hi2]

/-- `mapIntoWithKeyPrefixInternal` under the singleton-wrapping function
equals the identity-function run up to element re-keying. -/
theorem mapInto_wrap_vs_id (T : Node) :
    (mapIntoWithKeyPrefixInternal T [] none (fun x _ => .arr (.cons x .nil))).map
        (List.map stripKey) =
      (mapIntoWithKeyPrefixInternal T [] none (fun x _ => x)).map (List.map stripKey) := by
  have step : ∀ T2 : Node,
      traverseAllChildren
          (mapSingleChildIntoContext (fun x _ => .arr (.cons x .nil)) ("")) T2 ⟨[], 0⟩ =
        traverseAllChildrenImpl
          (mapSingleChildIntoContext (fun x _ => .arr (.cons x .nil)) ("")) T2 ("")
          ⟨[], 0⟩ →
      traverseAllChildren (mapSingleChildIntoContext (fun x _ => x) ("")) T2 ⟨[], 0⟩ =
        traverseAllChildrenImpl (mapSingleChildIntoContext (fun x _ => x) ("")) T2 ("")
          ⟨[], 0⟩ →
      (mapIntoWithKeyPrefixInternal T2 [] none (fun x _ => .arr (.cons x .nil))).map
          (List.map stripKey) =
        (mapIntoWithKeyPrefixInternal T2 [] none (fun x _ => x)).map
          (List.map stripKey) := by
    intro T2 e1 e2
    simp only [mapIntoWithKeyPrefixInternal]
    rw [e1, e2]
    cases hw : traverseAllChildrenImpl
        (mapSingleChildIntoContext (fun x _ => .arr (.cons x .nil)) ("")) T2 ("")
        ⟨[], 0⟩ with
    | error e =>
      have hi := (wrap_vs_id.1 T2 ("") ⟨[], 0⟩ ⟨[], 0⟩ rfl).1 e hw
      rw [hi]
    | ok r1 =>
      rcases (wrap_vs_id.1 T2 ("") ⟨[], 0⟩ ⟨[], 0⟩ rfl).2 r1 hw with ⟨r2, hi, hstrip⟩
      rw [hi]
      simpa [Except.map] using hstrip
  cases T with
  | nullv => rfl
  | undef => rfl
  | bool b => exact step _ rfl rfl
  | str s => exact step _ rfl rfl
  | num n => exact step _ rfl rfl
  | elem k p => exact step _ rfl rfl
  | portal k p => exact step _ rfl rfl
  | arr l => exact step _ rfl rfl
  | iterable l => exact step _ rfl rfl
  | obj ks s => exact step _ rfl rfl

/-- C4 counterexample: single-element array wrapping does change the output
sequence as literally stated, because the cloned elements receive different
keys (`.0/.0` versus `.0`). -/
theorem claim_C4_counterexample :
    mapChildren (.arr (.cons (.elem none 7) .nil)) (fun x _ => .arr (.cons x .nil)) =
      .ok (.arr (.cons (.elem (some (".0/.0")) 7) .nil)) ∧
    mapChildren (.arr (.cons (.elem none 7) .nil)) (fun x _ => x) =
      .ok (.arr (.cons (.elem (some (".0")) 7) .nil)) ∧
    ((".0/.0") : String) ≠ (".0") :=
  ⟨rfl, rfl, by decide⟩

/-- C4 (amended): for every tree, `mapChildren(T, x => [x])` and
`mapChildren(T, identity)` agree up to the keys of cloned elements: erasing
element keys from both outputs gives identical sequences, so wrapping
duplicates, drops and reorders nothing and changes only assigned keys. -/
theorem claim_C4_amended (T : Node) :
    (mapChildren T (fun x _ => .arr (.cons x .nil))).map stripTop =
      (mapChildren T (fun x _ => x)).map stripTop := by
  have main : ((mapIntoWithKeyPrefixInternal T [] none
        (fun x _ => .arr (.cons x .nil))).map
          (fun l => Node.arr (NodeList.ofList l))).map stripTop =
      ((mapIntoWithKeyPrefixInternal T [] none (fun x _ => x)).map
          (fun l => Node.arr (NodeList.ofList l))).map stripTop := by
    have h := mapInto_wrap_vs_id T
    cases hw : mapIntoWithKeyPrefixInternal T [] none (fun x _ => .arr (.cons x .nil)) with
    | error e =>
      cases hi : mapIntoWithKeyPrefixInternal T [] none (fun x _ => x) with
      | error e2 =>
        rw [hw, hi] at h
        simp only [Except.map] at h
        injection h with h2
        rw [h2]
      | ok li => rw [hw, hi] at h; exact absurd h (by simp [Except.map])
    | ok lw =>
      cases hi : mapIntoWithKeyPrefixInternal T [] none (fun x _ => x) with
      | error e2 => rw [hw, hi] at h; exact absurd h (by simp [Except.map])
      | ok li =>
        rw [hw, hi] at h
        simp only [Except.map] at h
        injection h with h2
        simp [Except.map, stripTop, stripList_ofList, h2]
  cases T with
  | nullv => rfl
  | undef => rfl
  | bool b => exact main
  | str s => exact main
  | num n => exact main
  | elem k p => exact main
  | portal k p => exact main
  | arr l => exact main
  | iterable l => exact main
  | obj ks s => exact main

end ReactChildren
